import Mathlib

/-!
Shallow embedding of `trycycler/base_scores.py` (per-base quality scores).

Conventions used throughout:
* CIGAR operation codes follow the source: `0` = match (`=`), `1` = mismatch
  (`X`), `2` = insertion (`I`), `3` = deletion (`D`).
* Machine integers are modelled as `Nat`/`Int`; scores are `Int` as in Python.
* Fallible code (Python `assert` failures, `IndexError`, numpy `ValueError`)
  is modelled with `Option`, `none` standing for a raised exception.
* The external aligner (`align_reads_to_seq`) is out of scope per the module
  boundary: the list of alignment records it returns is a parameter of the
  orchestrator.
* `settings.BASE_SCORE_WINDOW` / `settings.BASE_SCORE_THRESHOLD` live in a
  module that is not part of the analysed source; they are fixed
  process-wide tunables and appear here as explicit parameters `w` / `thr`.
-/

namespace Trycycler

/-- An alignment record as produced by the external aligner: half-open
reference coordinates and a run-length CIGAR string. -/
structure Alignment where
  ref_start : Nat
  ref_end : Nat
  cigar : String
deriving DecidableEq

/-! ### CIGAR tokenisation: `re.findall(r'\d+[IDX=]', a.cigar)`

The regex extracts all leftmost non-overlapping tokens of one or more digits
followed by one of the four operation symbols; characters that are part of no
such token are skipped.  `munch_digits` is the greedy `\d+` (ASCII digits, as
produced by actual aligners); `find_tokens` scans left to right, advancing by
one character when no token starts at the current position, exactly as the
regex engine does.  Fuel (the string length bounds the number of scan steps)
keeps the recursion structural. -/

def cigar_symbols : List Char := ['I', 'D', 'X', '=']

/-- Greedily consume a run of ASCII digits, accumulating their base-10 value
(`int(c[:-1])` in the source); returns the value and the rest. -/
def munch_digits (acc : Nat) : List Char → Nat × List Char
  | [] => (acc, [])
  | c :: rest =>
      if c.isDigit then munch_digits (acc * 10 + (c.toNat - 48)) rest
      else (acc, c :: rest)

/-- One scan of the regex engine over the character list. -/
def find_tokens : Nat → List Char → List (Nat × Char)
  | 0, _ => []
  | _, [] => []
  | fuel + 1, c :: rest =>
      if c.isDigit then
        match munch_digits 0 (c :: rest) with
        | (n, sym :: rest2) =>
            if sym ∈ cigar_symbols then (n, sym) :: find_tokens fuel rest2
            else find_tokens fuel rest
        | (_, []) => []
      else find_tokens fuel rest

def findall (s : List Char) : List (Nat × Char) := find_tokens s.length s

/-! ### CIGAR expansion: `get_expanded_cigar` -/

/-- The `letter -> v` dispatch of `get_expanded_cigar`; `none` models the
`assert False` branch for a letter outside the four operations. -/
def letter_to_val (c : Char) : Option Nat :=
  if c = '=' then some 0
  else if c = 'X' then some 1
  else if c = 'I' then some 2
  else if c = 'D' then some 3
  else none

/-- Fill the expanded CIGAR, one run at a time.  The source writes into a
pre-allocated array of size `sum of counts` left to right, which is exactly a
concatenation of the runs (its `assert i == expanded_cigar_size` holds by
construction in this form). -/
def expand_parts : List (Nat × Char) → Option (List Nat)
  | [] => some []
  | (num, letter) :: rest => do
      let v ← letter_to_val letter
      let tail ← expand_parts rest
      return List.replicate num v ++ tail

def get_expanded_cigar (a : Alignment) : Option (List Nat) :=
  expand_parts (findall a.cigar.data)

/-! ### Sliding-window failure detection: `get_pass_fail`

`np.convolve(a, v)` (full mode) has length `len(a)+len(v)-1` and entry
`k ↦ Σ_j v[j]·a[k-j]`; mode `'same'` returns the centred `max(len a, len v)`
entries, starting at offset `(min(len a, len v) - 1) / 2`.  numpy raises
`ValueError` when either array is empty, modelled as `none`. -/

def np_convolve_full (a v : List Nat) : List Nat :=
  (List.range (a.length + v.length - 1)).map (fun k =>
    ((List.range v.length).map (fun j =>
      if j ≤ k ∧ k - j < a.length then v.getD j 0 * a.getD (k - j) 0 else 0)).sum)

def np_convolve_same (a v : List Nat) : List Nat :=
  ((np_convolve_full a v).drop ((min a.length v.length - 1) / 2)).take
    (max a.length v.length)

/-- The "simplified" expanded CIGAR: 0 for match, 1 for everything else
(`simplified_expanded_cigar[simplified_expanded_cigar > 1] = 1`). -/
def simplify_cigar (expanded_cigar : List Nat) : List Nat :=
  expanded_cigar.map (fun v => if v > 1 then 1 else v)

def get_pass_fail (w thr : Nat) (expanded_cigar : List Nat) : Option (List Nat) :=
  if expanded_cigar.isEmpty || w == 0 then none
  else
    let conv := np_convolve_same (simplify_cigar expanded_cigar) (List.replicate w 1)
    some (conv.map (fun v => if v < thr then 0 else 1))

/-! ### Directional hysteresis scoring -/

/-- One step of the running score: reset on fail, `+1` on match, `-1` floored
at zero otherwise. -/
def score_step (op pf : Nat) (score : Int) : Int :=
  if pf = 1 then 0
  else if op = 0 then score + 1
  else if score - 1 < 0 then 0 else score - 1

/-- Forward scan: `get_cigar_scores_forward` walks indices `0 .. n-1` with a
running score started at 0 and records the score after each step.  The loop
indexes `pass_fail` with the expanded CIGAR's indices, so only the first
`len expanded_cigar` mask entries are consumed. -/
def scores_forward : List Nat → List Nat → Int → List Int
  | op :: ops, pf :: pfs, score =>
      let score2 := score_step op pf score
      score2 :: scores_forward ops pfs score2
  | _, _, _ => []

def get_cigar_scores_forward (expanded_cigar pass_fail : List Nat) : List Int :=
  scores_forward expanded_cigar pass_fail 0

/-- Backward scan: `get_cigar_scores_reverse` walks indices `n-1 .. 0`.  The
running score entering index `i` is the score recorded at index `i+1` (0 at
the right end), so the scan is the suffix recursion below: first score the
suffix, then step once with the suffix's leftmost recorded score. -/
def scores_backward : List Nat → List Nat → List Int
  | op :: ops, pf :: pfs =>
      let rest := scores_backward ops pfs
      score_step op pf (rest.headD 0) :: rest
  | _, _ => []

def get_cigar_scores_reverse (expanded_cigar pass_fail : List Nat) : List Int :=
  scores_backward expanded_cigar pass_fail

/-! ### Combining: `combine_forward_and_reverse_scores` -/

/-- Minimum of forward/reverse at every non-insertion column, in order.
`none` models the crashes of the source: the `assert` on equal score lengths,
an `IndexError` indexing `expanded_cigar`, and the length postcondition
(`IndexError` writing past `final_scores` when there are too many
non-insertion columns, the final `assert len(final_scores) == j` when there
are too few). -/
def combine_forward_and_reverse_scores (a : Alignment)
    (forward_scores reverse_scores : List Int) (expanded_cigar : List Nat) :
    Option (List Int) :=
  if forward_scores.length = reverse_scores.length ∧
      forward_scores.length ≤ expanded_cigar.length then
    let final_scores :=
      ((List.range forward_scores.length).filter
          (fun i => expanded_cigar.getD i 0 ≠ 2)).map
        (fun i => min (forward_scores.getD i 0) (reverse_scores.getD i 0))
    if final_scores.length = a.ref_end - a.ref_start then some final_scores
    else none
  else none

/-- `get_alignment_scores`: the per-alignment pipeline. -/
def get_alignment_scores (w thr : Nat) (a : Alignment) : Option (List Int) := do
  let expanded_cigar ← get_expanded_cigar a
  let pass_fail ← get_pass_fail w thr expanded_cigar
  let forward_scores := get_cigar_scores_forward expanded_cigar pass_fail
  let reverse_scores := get_cigar_scores_reverse expanded_cigar pass_fail
  combine_forward_and_reverse_scores a forward_scores reverse_scores expanded_cigar

/-! ### Accumulation and the per-sequence orchestrator -/

/-- `per_base_scores[a.ref_start + j] += s` for each score; `none` models the
`IndexError` of a write outside the accumulator. -/
def add_alignment_scores : List Int → Nat → List Int → Option (List Int)
  | acc, _, [] => some acc
  | acc, ref_pos, s :: rest =>
      if ref_pos < acc.length then
        add_alignment_scores (acc.set ref_pos (acc.getD ref_pos 0 + s)) (ref_pos + 1) rest
      else none

/-- The alignment loop of `get_one_seq_per_base_scores`. -/
def accumulate_alignments (w thr : Nat) (acc : List Int) :
    List Alignment → Option (List Int)
  | [] => some acc
  | a :: rest => do
      let alignment_scores ← get_alignment_scores w thr a
      let acc2 ← add_alignment_scores acc a.ref_start alignment_scores
      accumulate_alignments w thr acc2 rest

/-- For circular sequences the second-half alignments are tossed:
`[a for a in alignments if a.ref_start < seq_len]`; linear keeps all. -/
def kept_alignments (circular : Bool) (seq_len : Nat)
    (alignments : List Alignment) : List Alignment :=
  if circular then alignments.filter (fun a => a.ref_start < seq_len)
  else alignments

/-- The circular un-doubling loop: position `i` gets the larger of the two
half-scores (`score_1 if score_1 > score_2 else score_2`). -/
def fold_doubled (per_base_scores : List Int) (seq_len : Nat) : List Int :=
  (List.range seq_len).map (fun i =>
    let score_1 := per_base_scores.getD i 0
    let score_2 := per_base_scores.getD (i + seq_len) 0
    if score_1 > score_2 then score_1 else score_2)

/-- `get_one_seq_per_base_scores` with the aligner's output abstracted: for a
circular sequence `alignments` is what the aligner returned against the
doubled reference `seq + seq`, for a linear one against `seq` itself. -/
def get_one_seq_per_base_scores (w thr seq_len : Nat) (circular : Bool)
    (alignments : List Alignment) : Option (List Int) := do
  let ref_len := if circular then 2 * seq_len else seq_len
  let kept := kept_alignments circular seq_len alignments
  let per_base_scores ← accumulate_alignments w thr (List.replicate ref_len 0) kept
  return if circular then fold_doubled per_base_scores seq_len else per_base_scores

/-! ### Specification-side definitions (used for refinement statements) -/

/-- Specification-side combined score, following the spec's words: walk the
columns in order; for every column not marked as an insertion append
`min(forward[i], reverse[i])`; skip insertion columns entirely. -/
def spec_combined_scores : List Nat → List Int → List Int → List Int
  | op :: ops, f :: fs, r :: rs =>
      if op ≠ 2 then min f r :: spec_combined_scores ops fs rs
      else spec_combined_scores ops fs rs
  | _, _, _ => []

/-- Specification-side definition: the number of non-match columns inside
the truncated window of radius `h` centred at column `t` (the window covers
the indices `i` with `t - h ≤ i ≤ t + h` that exist). -/
def centered_window_count (ind : List Nat) (h t : Nat) : Nat :=
  ((List.range ind.length).map (fun i =>
    if t ≤ i + h ∧ i ≤ t + h then ind.getD i 0 else 0)).sum

/-! ## Basic lemmas about the directional scorers -/

theorem scores_forward_length (ops pfs : List Nat) (s : Int) :
    (scores_forward ops pfs s).length = min ops.length pfs.length := by
  induction ops generalizing pfs s with
  | nil => simp [scores_forward]
  | cons op ops ih =>
      cases pfs with
      | nil => simp [scores_forward]
      | cons pf pfs =>
          simp [scores_forward, ih, Nat.succ_min_succ]

theorem scores_forward_getD (ops pfs : List Nat) (s : Int) (i : Nat)
    (hi : i < ops.length) (hlen : ops.length ≤ pfs.length) :
    (scores_forward ops pfs s).getD i 0 =
      score_step (ops.getD i 0) (pfs.getD i 0)
        (if i = 0 then s else (scores_forward ops pfs s).getD (i - 1) 0) := by
  induction ops generalizing pfs s i with
  | nil => simp at hi
  | cons op ops ih =>
      cases pfs with
      | nil => simp at hlen
      | cons pf pfs =>
          cases i with
          | zero => simp [scores_forward]
          | succ i =>
              have hi' : i < ops.length := Nat.lt_of_succ_lt_succ hi
              have hlen' : ops.length ≤ pfs.length := Nat.le_of_succ_le_succ hlen
              have step := ih pfs (score_step op pf s) i hi' hlen'
              simp only [scores_forward, List.getD_cons_succ]
              rw [step]
              cases i with
              | zero => simp [scores_forward]
              | succ j => simp

theorem scores_backward_length (ops pfs : List Nat) :
    (scores_backward ops pfs).length = min ops.length pfs.length := by
  induction ops generalizing pfs with
  | nil => simp [scores_backward]
  | cons op ops ih =>
      cases pfs with
      | nil => simp [scores_backward]
      | cons pf pfs =>
          simp [scores_backward, ih, Nat.succ_min_succ]

theorem scores_backward_getD (ops pfs : List Nat) (i : Nat)
    (hi : i < ops.length) (hlen : ops.length ≤ pfs.length) :
    (scores_backward ops pfs).getD i 0 =
      score_step (ops.getD i 0) (pfs.getD i 0)
        (if i = ops.length - 1 then 0
         else (scores_backward ops pfs).getD (i + 1) 0) := by
  induction ops generalizing pfs i with
  | nil => simp at hi
  | cons op ops ih =>
      cases pfs with
      | nil => simp at hlen
      | cons pf pfs =>
          have hlen' : ops.length ≤ pfs.length := Nat.le_of_succ_le_succ hlen
          have hrest : (scores_backward ops pfs).length = ops.length := by
            rw [scores_backward_length]
            exact Nat.min_eq_left hlen'
          cases i with
          | zero =>
              simp only [scores_backward, List.getD_cons_zero, List.getD_cons_succ,
                List.length_cons, Nat.add_sub_cancel]
              congr 1
              cases hrestl : scores_backward ops pfs with
              | nil =>
                  rw [hrestl] at hrest
                  have : (0 : Nat) = ops.length := by
                    simp only [List.length_nil] at hrest
                    omega
                  simp [← this]
              | cons x xs =>
                  rw [hrestl] at hrest
                  have : ¬ ((0 : Nat) = ops.length) := by
                    simp only [List.length_cons] at hrest
                    omega
                  rw [if_neg this]
                  simp
          | succ i =>
              have hi' : i < ops.length := Nat.lt_of_succ_lt_succ hi
              have step := ih pfs i hi' hlen'
              simp only [scores_backward, List.getD_cons_succ, List.length_cons,
                Nat.add_sub_cancel]
              rw [step]
              by_cases hcase : i = ops.length - 1
              · rw [if_pos hcase, if_pos (by omega)]
              · rw [if_neg hcase, if_neg (by omega)]

/-! ## C1: the directional scorer's per-column rule -/

/-- C1: for every expanded CIGAR and failure mask of equal length, each
directional scorer outputs one score per column, and each column's value is
obtained from the running score of the previous column in scan order (0
before the scan's first column) by the rule: reset to 0 on a failing column,
increment by 1 on a non-failing match, decrement by 1 floored at 0 otherwise
(`score_step` is exactly that rule). -/
theorem directional_scorer_rule (ec pf : List Nat) (h : ec.length = pf.length) :
    (get_cigar_scores_forward ec pf).length = ec.length ∧
    (get_cigar_scores_reverse ec pf).length = ec.length ∧
    (∀ i, i < ec.length →
      (get_cigar_scores_forward ec pf).getD i 0 =
        score_step (ec.getD i 0) (pf.getD i 0)
          (if i = 0 then 0 else (get_cigar_scores_forward ec pf).getD (i - 1) 0)) ∧
    (∀ i, i < ec.length →
      (get_cigar_scores_reverse ec pf).getD i 0 =
        score_step (ec.getD i 0) (pf.getD i 0)
          (if i = ec.length - 1 then 0
           else (get_cigar_scores_reverse ec pf).getD (i + 1) 0)) := by
  have hle : ec.length ≤ pf.length := Nat.le_of_eq h
  refine ⟨?_, ?_, ?_, ?_⟩
  · rw [get_cigar_scores_forward, scores_forward_length]
    exact Nat.min_eq_left hle
  · rw [get_cigar_scores_reverse, scores_backward_length]
    exact Nat.min_eq_left hle
  · intro i hi
    exact scores_forward_getD ec pf 0 i hi hle
  · intro i hi
    exact scores_backward_getD ec pf i hi hle

/-- Concrete instantiation of `directional_scorer_rule` at the expanded CIGAR
`[=, X, =]` with an all-pass mask. -/
theorem directional_scorer_rule_witness :
    (get_cigar_scores_forward [0, 1, 0] [0, 0, 0]).length = ([0, 1, 0] : List Nat).length ∧
    (get_cigar_scores_reverse [0, 1, 0] [0, 0, 0]).length = ([0, 1, 0] : List Nat).length ∧
    (∀ i, i < ([0, 1, 0] : List Nat).length →
      (get_cigar_scores_forward [0, 1, 0] [0, 0, 0]).getD i 0 =
        score_step (([0, 1, 0] : List Nat).getD i 0) (([0, 0, 0] : List Nat).getD i 0)
          (if i = 0 then 0 else (get_cigar_scores_forward [0, 1, 0] [0, 0, 0]).getD (i - 1) 0)) ∧
    (∀ i, i < ([0, 1, 0] : List Nat).length →
      (get_cigar_scores_reverse [0, 1, 0] [0, 0, 0]).getD i 0 =
        score_step (([0, 1, 0] : List Nat).getD i 0) (([0, 0, 0] : List Nat).getD i 0)
          (if i = ([0, 1, 0] : List Nat).length - 1 then 0
           else (get_cigar_scores_reverse [0, 1, 0] [0, 0, 0]).getD (i + 1) 0)) :=
  directional_scorer_rule [0, 1, 0] [0, 0, 0] (by decide)

/-! ## C2: the score combiner -/

theorem combined_scores_eq_spec (ec : List Nat) (f r : List Int)
    (hfr : f.length = r.length) (hfe : f.length = ec.length) :
    ((List.range f.length).filter (fun i => ec.getD i 0 ≠ 2)).map
        (fun i => min (f.getD i 0) (r.getD i 0)) =
      spec_combined_scores ec f r := by
  induction f generalizing ec r with
  | nil =>
      cases ec with
      | nil => simp [spec_combined_scores]
      | cons op ops => simp at hfe
  | cons x fs ih =>
      cases ec with
      | nil => simp at hfe
      | cons op ops =>
          cases r with
          | nil => simp at hfr
          | cons y rs =>
              have hfr' : fs.length = rs.length := by simpa using hfr
              have hfe' : fs.length = ops.length := by simpa using hfe
              have ihs := ih ops rs hfr' hfe'
              simp only [List.length_cons, List.range_succ_eq_map,
                List.filter_cons, List.filter_map, List.map_map,
                spec_combined_scores]
              rw [← ihs]
              by_cases hop : op = 2
              · subst hop
                simp [Function.comp_def]
              · simp [Function.comp_def, hop]

/-- C2: whenever the combiner returns, it returns exactly the in-order
minima over the non-insertion columns (insertions skipped), of length
`ref_end - ref_start`; and it raises (models the `assert` / `IndexError`)
precisely when that length postcondition would be violated. -/
theorem combiner_min_skip_insertions (a : Alignment) (f r : List Int)
    (ec : List Nat) (hfr : f.length = r.length) (hfe : f.length = ec.length) :
    (∀ out, combine_forward_and_reverse_scores a f r ec = some out →
        out = spec_combined_scores ec f r ∧
        out.length = a.ref_end - a.ref_start) ∧
    (combine_forward_and_reverse_scores a f r ec = none ↔
        (spec_combined_scores ec f r).length ≠ a.ref_end - a.ref_start) := by
  have hcond : f.length = r.length ∧ f.length ≤ ec.length :=
    ⟨hfr, le_of_eq hfe⟩
  rw [combine_forward_and_reverse_scores, if_pos hcond,
    combined_scores_eq_spec ec f r hfr hfe]
  constructor
  · intro out hout
    by_cases hl : (spec_combined_scores ec f r).length = a.ref_end - a.ref_start
    · rw [if_pos hl] at hout
      cases hout
      exact ⟨rfl, hl⟩
    · rw [if_neg hl] at hout
      cases hout
  · by_cases hl : (spec_combined_scores ec f r).length = a.ref_end - a.ref_start
    · simp [hl]
    · simp [hl]

/-- Concrete instantiation of `combiner_min_skip_insertions`: columns
`[=, I, =]`, forward `[1, 2, 3]`, reverse `[3, 1, 1]`, span 2. -/
theorem combiner_min_skip_insertions_witness :
    (∀ out,
        combine_forward_and_reverse_scores ⟨0, 2, "1=1I1="⟩ [1, 2, 3] [3, 1, 1] [0, 2, 0] =
          some out →
        out = spec_combined_scores [0, 2, 0] [1, 2, 3] [3, 1, 1] ∧
        out.length = (⟨0, 2, "1=1I1="⟩ : Alignment).ref_end -
          (⟨0, 2, "1=1I1="⟩ : Alignment).ref_start) ∧
    (combine_forward_and_reverse_scores ⟨0, 2, "1=1I1="⟩ [1, 2, 3] [3, 1, 1] [0, 2, 0] =
        none ↔
      (spec_combined_scores [0, 2, 0] [1, 2, 3] [3, 1, 1]).length ≠
        (⟨0, 2, "1=1I1="⟩ : Alignment).ref_end -
          (⟨0, 2, "1=1I1="⟩ : Alignment).ref_start) :=
  combiner_min_skip_insertions ⟨0, 2, "1=1I1="⟩ [1, 2, 3] [3, 1, 1] [0, 2, 0]
    (by decide) (by decide)

/-! ## Non-negativity and length plumbing -/

theorem getD_zero_nonneg :
    ∀ (l : List Int), (∀ x ∈ l, 0 ≤ x) → ∀ i, 0 ≤ l.getD i 0
  | [], _, i => by simp
  | x :: xs, h, 0 => by simpa using h x (by simp)
  | x :: xs, h, i + 1 => by
      simpa using getD_zero_nonneg xs (fun y hy => h y (by simp [hy])) i

theorem score_step_nonneg (op pf : Nat) (s : Int) (hs : 0 ≤ s) :
    0 ≤ score_step op pf s := by
  unfold score_step
  split_ifs <;> omega

theorem scores_forward_nonneg (ops pfs : List Nat) (s : Int) (hs : 0 ≤ s) :
    ∀ x ∈ scores_forward ops pfs s, 0 ≤ x := by
  induction ops generalizing pfs s with
  | nil => simp [scores_forward]
  | cons op ops ih =>
      cases pfs with
      | nil => simp [scores_forward]
      | cons pf pfs =>
          intro x hx
          simp only [scores_forward, List.mem_cons] at hx
          rcases hx with rfl | hx
          · exact score_step_nonneg _ _ _ hs
          · exact ih pfs _ (score_step_nonneg _ _ _ hs) x hx

theorem scores_backward_nonneg (ops pfs : List Nat) :
    ∀ x ∈ scores_backward ops pfs, 0 ≤ x := by
  induction ops generalizing pfs with
  | nil => simp [scores_backward]
  | cons op ops ih =>
      cases pfs with
      | nil => simp [scores_backward]
      | cons pf pfs =>
          intro x hx
          simp only [scores_backward, List.mem_cons] at hx
          rcases hx with rfl | hx
          · refine score_step_nonneg _ _ _ ?_
            cases hrest : scores_backward ops pfs with
            | nil => simp
            | cons z zs =>
                simpa using ih pfs z (by rw [hrest]; simp)
          · exact ih pfs x hx

theorem combine_some_nonneg (a : Alignment) (f r : List Int) (ec : List Nat)
    (out : List Int) (hf : ∀ x ∈ f, 0 ≤ x) (hr : ∀ x ∈ r, 0 ≤ x)
    (h : combine_forward_and_reverse_scores a f r ec = some out) :
    ∀ x ∈ out, 0 ≤ x := by
  rw [combine_forward_and_reverse_scores] at h
  by_cases h1 : f.length = r.length ∧ f.length ≤ ec.length
  · rw [if_pos h1] at h
    by_cases h2 : (((List.range f.length).filter (fun i => ec.getD i 0 ≠ 2)).map
        (fun i => min (f.getD i 0) (r.getD i 0))).length = a.ref_end - a.ref_start
    · rw [if_pos h2] at h
      cases h
      intro x hx
      rcases List.mem_map.mp hx with ⟨i, _, rfl⟩
      exact le_min (getD_zero_nonneg f hf i) (getD_zero_nonneg r hr i)
    · rw [if_neg h2] at h
      cases h
  · rw [if_neg h1] at h
    cases h

theorem combine_some_length (a : Alignment) (f r : List Int) (ec : List Nat)
    (out : List Int)
    (h : combine_forward_and_reverse_scores a f r ec = some out) :
    out.length = a.ref_end - a.ref_start := by
  rw [combine_forward_and_reverse_scores] at h
  by_cases h1 : f.length = r.length ∧ f.length ≤ ec.length
  · rw [if_pos h1] at h
    by_cases h2 : (((List.range f.length).filter (fun i => ec.getD i 0 ≠ 2)).map
        (fun i => min (f.getD i 0) (r.getD i 0))).length = a.ref_end - a.ref_start
    · rw [if_pos h2] at h
      cases h
      exact h2
    · rw [if_neg h2] at h
      cases h
  · rw [if_neg h1] at h
    cases h

theorem get_alignment_scores_nonneg (w thr : Nat) (a : Alignment)
    (out : List Int) (h : get_alignment_scores w thr a = some out) :
    ∀ x ∈ out, 0 ≤ x := by
  rw [get_alignment_scores] at h
  cases hec : get_expanded_cigar a with
  | none => rw [hec] at h; simp at h
  | some ec =>
      rw [hec] at h
      simp only [Option.bind_eq_bind, Option.some_bind] at h
      cases hpf : get_pass_fail w thr ec with
      | none => rw [hpf] at h; simp at h
      | some pf =>
          rw [hpf] at h
          simp only [Option.some_bind] at h
          exact combine_some_nonneg a _ _ ec out
            (scores_forward_nonneg ec pf 0 le_rfl)
            (scores_backward_nonneg ec pf) h

theorem get_alignment_scores_length (w thr : Nat) (a : Alignment)
    (out : List Int) (h : get_alignment_scores w thr a = some out) :
    out.length = a.ref_end - a.ref_start := by
  rw [get_alignment_scores] at h
  cases hec : get_expanded_cigar a with
  | none => rw [hec] at h; simp at h
  | some ec =>
      rw [hec] at h
      simp only [Option.bind_eq_bind, Option.some_bind] at h
      cases hpf : get_pass_fail w thr ec with
      | none => rw [hpf] at h; simp at h
      | some pf =>
          rw [hpf] at h
          simp only [Option.some_bind] at h
          exact combine_some_length a _ _ ec out h

/-! ## Lemmas about the accumulator -/

theorem add_alignment_scores_length (scores : List Int) :
    ∀ (acc : List Int) (pos : Nat) (acc2 : List Int),
      add_alignment_scores acc pos scores = some acc2 →
      acc2.length = acc.length := by
  induction scores with
  | nil =>
      intro acc pos acc2 h
      cases h
      rfl
  | cons s rest ih =>
      intro acc pos acc2 h
      rw [add_alignment_scores] at h
      by_cases hpos : pos < acc.length
      · rw [if_pos hpos] at h
        have := ih _ _ _ h
        simpa using this
      · rw [if_neg hpos] at h
        cases h

theorem add_alignment_scores_some (scores : List Int) :
    ∀ (acc : List Int) (pos : Nat), pos + scores.length ≤ acc.length →
      ∃ acc2, add_alignment_scores acc pos scores = some acc2 := by
  induction scores with
  | nil =>
      intro acc pos _
      exact ⟨acc, rfl⟩
  | cons s rest ih =>
      intro acc pos hle
      have hpos : pos < acc.length := by
        simp only [List.length_cons] at hle
        omega
      rw [add_alignment_scores, if_pos hpos]
      refine ih _ (pos + 1) ?_
      simp only [List.length_set]
      simp only [List.length_cons] at hle
      omega

theorem add_alignment_scores_sum (scores : List Int) :
    ∀ (acc : List Int) (pos : Nat) (acc2 : List Int),
      add_alignment_scores acc pos scores = some acc2 →
      acc2.sum = acc.sum + scores.sum := by
  induction scores with
  | nil =>
      intro acc pos acc2 h
      cases h
      simp
  | cons s rest ih =>
      intro acc pos acc2 h
      rw [add_alignment_scores] at h
      by_cases hpos : pos < acc.length
      · rw [if_pos hpos] at h
        have hsum := ih _ _ _ h
        rw [hsum, List.sum_set']
        rw [dif_pos hpos]
        have : acc.getD pos 0 = acc[pos] := List.getD_eq_getElem acc 0 hpos
        rw [this]
        simp only [List.sum_cons]
        ring
      · rw [if_neg hpos] at h
        cases h

theorem add_alignment_scores_nonneg (scores : List Int) :
    ∀ (acc : List Int) (pos : Nat) (acc2 : List Int),
      (∀ x ∈ acc, 0 ≤ x) → (∀ s ∈ scores, 0 ≤ s) →
      add_alignment_scores acc pos scores = some acc2 →
      ∀ x ∈ acc2, 0 ≤ x := by
  induction scores with
  | nil =>
      intro acc pos acc2 hacc _ h
      cases h
      exact hacc
  | cons s rest ih =>
      intro acc pos acc2 hacc hs h
      rw [add_alignment_scores] at h
      by_cases hpos : pos < acc.length
      · rw [if_pos hpos] at h
        refine ih _ _ _ ?_ (fun x hx => hs x (by simp [hx])) h
        intro x hx
        rcases List.mem_or_eq_of_mem_set hx with hx2 | rfl
        · exact hacc x hx2
        · have h1 : 0 ≤ acc.getD pos 0 := getD_zero_nonneg acc hacc pos
          have h2 : 0 ≤ s := hs s (by simp)
          omega
      · rw [if_neg hpos] at h
        cases h

theorem accumulate_alignments_length (w thr : Nat) (aligns : List Alignment) :
    ∀ (acc acc2 : List Int),
      accumulate_alignments w thr acc aligns = some acc2 →
      acc2.length = acc.length := by
  induction aligns with
  | nil =>
      intro acc acc2 h
      cases h
      rfl
  | cons a rest ih =>
      intro acc acc2 h
      rw [accumulate_alignments] at h
      cases hs : get_alignment_scores w thr a with
      | none => rw [hs] at h; simp at h
      | some scores =>
          rw [hs] at h
          simp only [Option.bind_eq_bind, Option.some_bind] at h
          cases hadd : add_alignment_scores acc a.ref_start scores with
          | none => rw [hadd] at h; simp at h
          | some acc1 =>
              rw [hadd] at h
              simp only [Option.some_bind] at h
              rw [ih _ _ h]
              exact add_alignment_scores_length scores _ _ _ hadd

theorem accumulate_alignments_sum (w thr : Nat) (aligns : List Alignment) :
    ∀ (acc acc2 : List Int),
      accumulate_alignments w thr acc aligns = some acc2 →
      acc2.sum = acc.sum +
        (aligns.map (fun a => ((get_alignment_scores w thr a).getD []).sum)).sum := by
  induction aligns with
  | nil =>
      intro acc acc2 h
      cases h
      simp
  | cons a rest ih =>
      intro acc acc2 h
      rw [accumulate_alignments] at h
      cases hs : get_alignment_scores w thr a with
      | none => rw [hs] at h; simp at h
      | some scores =>
          rw [hs] at h
          simp only [Option.bind_eq_bind, Option.some_bind] at h
          cases hadd : add_alignment_scores acc a.ref_start scores with
          | none => rw [hadd] at h; simp at h
          | some acc1 =>
              rw [hadd] at h
              simp only [Option.some_bind] at h
              have h1 := add_alignment_scores_sum scores _ _ _ hadd
              rw [ih _ _ h, h1]
              simp only [List.map_cons, List.sum_cons, hs, Option.getD_some]
              ring

theorem accumulate_alignments_nonneg (w thr : Nat) (aligns : List Alignment) :
    ∀ (acc acc2 : List Int), (∀ x ∈ acc, 0 ≤ x) →
      accumulate_alignments w thr acc aligns = some acc2 →
      ∀ x ∈ acc2, 0 ≤ x := by
  induction aligns with
  | nil =>
      intro acc acc2 hacc h
      cases h
      exact hacc
  | cons a rest ih =>
      intro acc acc2 hacc h
      rw [accumulate_alignments] at h
      cases hs : get_alignment_scores w thr a with
      | none => rw [hs] at h; simp at h
      | some scores =>
          rw [hs] at h
          simp only [Option.bind_eq_bind, Option.some_bind] at h
          cases hadd : add_alignment_scores acc a.ref_start scores with
          | none => rw [hadd] at h; simp at h
          | some acc1 =>
              rw [hadd] at h
              simp only [Option.some_bind] at h
              exact ih _ _ (add_alignment_scores_nonneg scores _ _ _ hacc
                (get_alignment_scores_nonneg w thr a scores hs) hadd) h

/-! ## C3: the circular fold -/

/-- C3: for a circular sequence of length `L`, the orchestrator folds the
doubled accumulator of length `2L` into the final profile of length `L`,
entry `i` being `max(accumulator[i], accumulator[i + L])`. -/
theorem circular_fold_max (w thr L : Nat) (aligns : List Alignment)
    (p : List Int)
    (h : get_one_seq_per_base_scores w thr L true aligns = some p) :
    ∃ acc, accumulate_alignments w thr (List.replicate (2 * L) 0)
        (kept_alignments true L aligns) = some acc ∧
      acc.length = 2 * L ∧ p.length = L ∧
      ∀ i < L, p.getD i 0 = max (acc.getD i 0) (acc.getD (i + L) 0) := by
  rw [get_one_seq_per_base_scores] at h
  simp only [if_true, Option.bind_eq_bind] at h
  cases hacc : accumulate_alignments w thr (List.replicate (2 * L) 0)
      (kept_alignments true L aligns) with
  | none => rw [hacc] at h; simp at h
  | some acc =>
      rw [hacc] at h
      simp only [Option.some_bind, if_true] at h
      refine ⟨acc, rfl, ?_, ?_, ?_⟩
      · rw [accumulate_alignments_length w thr _ _ _ hacc]
        simp
      · rw [← Option.some_inj.mp h, fold_doubled]
        simp
      · intro i hi
        rw [← Option.some_inj.mp h, fold_doubled]
        have hlen : i < ((List.range L).map (fun i =>
            let score_1 := acc.getD i 0
            let score_2 := acc.getD (i + L) 0
            if score_1 > score_2 then score_1 else score_2)).length := by
          simpa using hi
        rw [List.getD_eq_getElem _ _ hlen]
        simp only [List.getElem_map, List.getElem_range]
        rcases le_or_lt (acc.getD i 0) (acc.getD (i + L) 0) with hle | hlt
        · rw [if_neg (not_lt.mpr hle), max_eq_right hle]
        · rw [if_pos hlt, max_eq_left (le_of_lt hlt)]

/-- Concrete instantiation of `circular_fold_max`: one origin-spanning
alignment on a circular sequence of length 1. -/
theorem circular_fold_max_witness :
    get_one_seq_per_base_scores 1 2 1 true [⟨0, 2, "2="⟩] = some [1] ∧
    ∃ acc, accumulate_alignments 1 2 (List.replicate (2 * 1) 0)
        (kept_alignments true 1 [⟨0, 2, "2="⟩]) = some acc ∧
      acc.length = 2 * 1 ∧ ([1] : List Int).length = 1 ∧
      ∀ i < 1, ([1] : List Int).getD i 0 =
        max (acc.getD i 0) (acc.getD (i + 1) 0) :=
  ⟨by decide, circular_fold_max 1 2 1 [⟨0, 2, "2="⟩] [1] (by decide)⟩

/-! ## C7: discarding second-half alignments for circular sequences -/

/-- C7: for a circular sequence the orchestrator keeps exactly the aligner's
records with `ref_start < L`, discarding the ones starting in the second half
of the doubled reference; for a linear sequence nothing is discarded. -/
theorem orchestrator_discard (L : Nat) (aligns : List Alignment)
    (a : Alignment) (h : a ∈ aligns) :
    (a ∈ kept_alignments true L aligns ↔ a.ref_start < L) ∧
    kept_alignments false L aligns = aligns := by
  constructor
  · simp [kept_alignments, h]
  · rfl

/-- Concrete instantiation of `orchestrator_discard`: an alignment starting
in the second half of a doubled length-3 reference. -/
theorem orchestrator_discard_witness :
    ((⟨4, 6, "2="⟩ : Alignment) ∈
        kept_alignments true 3 [⟨0, 2, "2="⟩, ⟨4, 6, "2="⟩] ↔
      (⟨4, 6, "2="⟩ : Alignment).ref_start < 3) ∧
    kept_alignments false 3 [⟨0, 2, "2="⟩, ⟨4, 6, "2="⟩] =
      [⟨0, 2, "2="⟩, ⟨4, 6, "2="⟩] :=
  orchestrator_discard 3 [⟨0, 2, "2="⟩, ⟨4, 6, "2="⟩] ⟨4, 6, "2="⟩ (by simp)

/-! ## C10: accumulation writes stay in bounds -/

/-- C10: under the aligner's interface contract
(`ref_start < ref_end ≤ ref_len`) and the combiner's length postcondition,
adding an alignment's scores into an accumulator of length `ref_len` never
hits an out-of-bounds position (no `IndexError`: the addition succeeds and
preserves the accumulator's length). -/
theorem accumulation_within_bounds (acc scores : List Int) (a : Alignment)
    (ref_len : Nat) (hacc : acc.length = ref_len) (hre : a.ref_end ≤ ref_len)
    (hlen : scores.length = a.ref_end - a.ref_start)
    (hse : a.ref_start < a.ref_end) :
    ∃ acc2, add_alignment_scores acc a.ref_start scores = some acc2 ∧
      acc2.length = acc.length := by
  obtain ⟨acc2, h⟩ := add_alignment_scores_some scores acc a.ref_start (by omega)
  exact ⟨acc2, h, add_alignment_scores_length scores _ _ _ h⟩

/-- Concrete instantiation of `accumulation_within_bounds`. -/
theorem accumulation_within_bounds_witness :
    ∃ acc2, add_alignment_scores [0, 0, 0] (⟨1, 3, "2="⟩ : Alignment).ref_start
        [5, 7] = some acc2 ∧
      acc2.length = ([0, 0, 0] : List Int).length :=
  accumulation_within_bounds [0, 0, 0] [5, 7] ⟨1, 3, "2="⟩ 3
    (by decide) (by decide) (by decide) (by decide)

/-! ## C6: profiles are non-negative and sequence-length -/

/-- C6: any profile the pipeline returns (linear or circular) has exactly one
entry per position of the candidate sequence and all entries non-negative;
and every directional score is non-negative. -/
theorem profile_nonneg (w thr L : Nat) (circ : Bool) (aligns : List Alignment)
    (p : List Int)
    (h : get_one_seq_per_base_scores w thr L circ aligns = some p) :
    (p.length = L ∧ ∀ x ∈ p, 0 ≤ x) ∧
    (∀ (ec pf : List Nat), ∀ x ∈ get_cigar_scores_forward ec pf, 0 ≤ x) ∧
    (∀ (ec pf : List Nat), ∀ x ∈ get_cigar_scores_reverse ec pf, 0 ≤ x) := by
  refine ⟨?_, fun ec pf => scores_forward_nonneg ec pf 0 le_rfl,
    fun ec pf => scores_backward_nonneg ec pf⟩
  rw [get_one_seq_per_base_scores] at h
  simp only [Option.bind_eq_bind] at h
  cases hacc : accumulate_alignments w thr
      (List.replicate (if circ then 2 * L else L) 0)
      (kept_alignments circ L aligns) with
  | none => rw [hacc] at h; simp at h
  | some acc =>
      rw [hacc] at h
      simp only [Option.some_bind] at h
      have haccnn : ∀ x ∈ acc, 0 ≤ x :=
        accumulate_alignments_nonneg w thr _ _ _ (by simp) hacc
      have hp := Option.some_inj.mp h
      cases circ with
      | false =>
          have hlen : acc.length = L := by
            rw [accumulate_alignments_length w thr _ _ _ hacc]
            simp
          rw [if_neg (by simp)] at hp
          rw [← hp]
          exact ⟨hlen, haccnn⟩
      | true =>
          rw [if_pos rfl] at hp
          rw [← hp]
          constructor
          · simp [fold_doubled]
          · intro x hx
            rw [fold_doubled] at hx
            rcases List.mem_map.mp hx with ⟨i, _, rfl⟩
            simp only []
            split_ifs
            · exact getD_zero_nonneg acc haccnn i
            · exact getD_zero_nonneg acc haccnn (i + L)

/-- Concrete instantiation of `profile_nonneg`. -/
theorem profile_nonneg_witness :
    ((([1, 1] : List Int).length = 2 ∧ ∀ x ∈ ([1, 1] : List Int), 0 ≤ x) ∧
    (∀ (ec pf : List Nat), ∀ x ∈ get_cigar_scores_forward ec pf, 0 ≤ x) ∧
    (∀ (ec pf : List Nat), ∀ x ∈ get_cigar_scores_reverse ec pf, 0 ≤ x)) :=
  profile_nonneg 1 2 2 false [⟨0, 2, "2="⟩] [1, 1] (by decide)

/-! ## C8: total-score additivity (holds linearly, fails circularly) -/

/-- C8 counterexample: on a circular length-1 sequence with a single
origin-spanning alignment, the folded profile sums to 1 while the
alignment's combined score sums to 2, so the claimed equality fails. -/
theorem total_additivity_counterexample :
    get_one_seq_per_base_scores 1 2 1 true [⟨0, 2, "2="⟩] = some [1] ∧
    get_alignment_scores 1 2 (⟨0, 2, "2="⟩ : Alignment) = some [1, 1] ∧
    ([1] : List Int).sum ≠ ([1, 1] : List Int).sum :=
  ⟨by decide, by decide, by decide⟩

/-- C8 (amended): for a linear sequence the profile's total equals the sum
over all alignments of their combined-score totals.  (For a circular
sequence the max-fold can only lose mass, as the counterexample shows.) -/
theorem total_score_additivity_linear (w thr L : Nat)
    (aligns : List Alignment) (p : List Int)
    (h : get_one_seq_per_base_scores w thr L false aligns = some p) :
    p.sum =
      (aligns.map (fun a => ((get_alignment_scores w thr a).getD []).sum)).sum := by
  rw [get_one_seq_per_base_scores] at h
  simp only [Option.bind_eq_bind, Bool.false_eq_true, if_false] at h
  cases hacc : accumulate_alignments w thr (List.replicate L 0)
      (kept_alignments false L aligns) with
  | none => rw [hacc] at h; simp at h
  | some acc =>
      rw [hacc] at h
      simp only [Option.some_bind] at h
      have hsum := accumulate_alignments_sum w thr _ _ _ hacc
      rw [← Option.some_inj.mp h, hsum]
      simp [kept_alignments]

/-- Concrete instantiation of `total_score_additivity_linear`. -/
theorem total_score_additivity_linear_witness :
    ([1, 1] : List Int).sum =
      (([⟨0, 2, "2="⟩] : List Alignment).map
        (fun a => ((get_alignment_scores 1 2 a).getD []).sum)).sum :=
  total_score_additivity_linear 1 2 2 [⟨0, 2, "2="⟩] [1, 1] (by decide)

/-! ## C5: malformed CIGAR tokens -/

theorem find_tokens_symbols (fuel : Nat) :
    ∀ (s : List Char), ∀ p ∈ find_tokens fuel s, p.2 ∈ cigar_symbols := by
  induction fuel with
  | zero =>
      intro s p hp
      simp [find_tokens] at hp
  | succ fuel ih =>
      intro s p hp
      cases s with
      | nil => simp [find_tokens] at hp
      | cons c rest =>
          by_cases hd : c.isDigit
          · rcases hm : munch_digits 0 (c :: rest) with ⟨n, rest1⟩
            cases rest1 with
            | nil =>
                rw [find_tokens, if_pos hd, hm] at hp
                simp at hp
            | cons sym rest2 =>
                rw [find_tokens, if_pos hd, hm] at hp
                simp only [] at hp
                by_cases hsym : sym ∈ cigar_symbols
                · rw [if_pos hsym] at hp
                  rcases List.mem_cons.mp hp with rfl | hp2
                  · exact hsym
                  · exact ih rest2 p hp2
                · rw [if_neg hsym] at hp
                  exact ih rest p hp
          · rw [find_tokens, if_neg hd] at hp
            exact ih rest p hp

theorem expand_parts_total (parts : List (Nat × Char))
    (h : ∀ p ∈ parts, p.2 ∈ cigar_symbols) :
    ∃ l, expand_parts parts = some l := by
  induction parts with
  | nil => exact ⟨[], rfl⟩
  | cons p rest ih =>
      obtain ⟨num, letter⟩ := p
      obtain ⟨tail, htail⟩ := ih (fun q hq => h q (by simp [hq]))
      have hsym : letter ∈ cigar_symbols := h (num, letter) (by simp)
      have hval : ∃ v, letter_to_val letter = some v := by
        simp only [cigar_symbols, List.mem_cons, List.mem_singleton,
          List.not_mem_nil, or_false] at hsym
        rcases hsym with rfl | rfl | rfl | rfl
        · exact ⟨2, by decide⟩
        · exact ⟨3, by decide⟩
        · exact ⟨1, by decide⟩
        · exact ⟨0, by decide⟩
      obtain ⟨v, hv⟩ := hval
      refine ⟨List.replicate num v ++ tail, ?_⟩
      rw [expand_parts, hv, htail]
      rfl

/-- C5 (amended): the expander never raises for any CIGAR string: there is
no `MalformedCigarError`; `re.findall` extracts the well-formed tokens and
silently skips everything else, and the `assert False` branch is
unreachable because extracted symbols always lie in `{I, D, X, =}`. -/
theorem expander_never_fails (a : Alignment) :
    ∃ l, get_expanded_cigar a = some l := by
  rw [get_expanded_cigar]
  exact expand_parts_total _ (fun p hp => find_tokens_symbols _ _ p hp)

/-- C5 counterexample: `"5=3M2="` contains the token `3M`, which matches
neither `<digits><IDX=>` symbol-wise; the claim demands a failure, but the
expander succeeds and returns exactly the expansion of `"5=2="` — the
malformed token is silently ignored. -/
theorem expander_counterexample :
    get_expanded_cigar ⟨0, 7, "5=3M2="⟩ = some [0, 0, 0, 0, 0, 0, 0] ∧
    get_expanded_cigar ⟨0, 7, "5=3M2="⟩ = get_expanded_cigar ⟨0, 7, "5=2="⟩ :=
  ⟨by decide, by decide⟩

/-! ## C9: the end-to-end ramp scenario -/

/-- The scorers only read the mask at the expanded CIGAR's indices. -/
theorem scores_forward_take (ops pfs : List Nat) (s : Int) :
    scores_forward ops pfs s = scores_forward ops (pfs.take ops.length) s := by
  induction ops generalizing pfs s with
  | nil => cases pfs <;> rfl
  | cons op ops ih =>
      cases pfs with
      | nil => rfl
      | cons pf pfs =>
          simp only [scores_forward, List.length_cons, List.take_succ_cons]
          rw [← ih]

theorem scores_backward_take (ops pfs : List Nat) :
    scores_backward ops pfs = scores_backward ops (pfs.take ops.length) := by
  induction ops generalizing pfs with
  | nil => cases pfs <;> rfl
  | cons op ops ih =>
      cases pfs with
      | nil => rfl
      | cons pf pfs =>
          simp only [scores_backward, List.length_cons, List.take_succ_cons]
          rw [← ih]

/-- C9: one alignment covering `ref_start = 0, ref_end = 10` with CIGAR
`"10="`, under any window/threshold configuration for which no column fails:
the combined score is the symmetric ramp `[1,2,3,4,5,5,4,3,2,1]`, the
pointwise minimum of the forward climb 1..10 and the reverse climb 10..1. -/
theorem end_to_end_ramp (w thr : Nat) (pf : List Nat)
    (hpf : get_pass_fail w thr (List.replicate 10 0) = some pf)
    (htake : pf.take 10 = List.replicate 10 0) :
    get_alignment_scores w thr ⟨0, 10, "10="⟩ =
      some [1, 2, 3, 4, 5, 5, 4, 3, 2, 1] := by
  rw [get_alignment_scores]
  have hec : get_expanded_cigar ⟨0, 10, "10="⟩ = some (List.replicate 10 0) := by
    decide
  rw [hec]
  simp only [Option.bind_eq_bind, Option.some_bind]
  rw [hpf]
  simp only [Option.some_bind]
  have hfwd : get_cigar_scores_forward (List.replicate 10 0) pf =
      get_cigar_scores_forward (List.replicate 10 0) (List.replicate 10 0) := by
    rw [get_cigar_scores_forward, get_cigar_scores_forward,
      scores_forward_take _ pf 0]
    rw [List.length_replicate, htake]
  have hrev : get_cigar_scores_reverse (List.replicate 10 0) pf =
      get_cigar_scores_reverse (List.replicate 10 0) (List.replicate 10 0) := by
    rw [get_cigar_scores_reverse, get_cigar_scores_reverse,
      scores_backward_take _ pf]
    rw [List.length_replicate, htake]
  rw [hfwd, hrev]
  decide

/-- Concrete instantiation of `end_to_end_ramp` with window 1 and
threshold 2 — no window of a perfect-match alignment reaches the
threshold. -/
theorem end_to_end_ramp_witness :
    get_alignment_scores 1 2 ⟨0, 10, "10="⟩ =
      some [1, 2, 3, 4, 5, 5, 4, 3, 2, 1] :=
  end_to_end_ramp 1 2 (List.replicate 10 0) (by decide) (by decide)

/-! ## C4: the window failure detector -/

theorem sum_map_range (n : Nat) (f : Nat → Nat) :
    ((List.range n).map f).sum = ∑ i ∈ Finset.range n, f i := by
  induction n with
  | zero => simp
  | succ n ih =>
      rw [List.range_succ, List.map_append, List.sum_append,
        Finset.sum_range_succ, ih]
      simp

theorem np_convolve_full_length (a v : List Nat) :
    (np_convolve_full a v).length = a.length + v.length - 1 := by
  simp [np_convolve_full]

theorem np_convolve_full_getD (a v : List Nat) (k : Nat)
    (hk : k < a.length + v.length - 1) :
    (np_convolve_full a v).getD k 0 =
      ((List.range v.length).map (fun j =>
        if j ≤ k ∧ k - j < a.length then v.getD j 0 * a.getD (k - j) 0
        else 0)).sum := by
  have hk2 : k < (np_convolve_full a v).length := by
    rw [np_convolve_full_length]
    exact hk
  rw [List.getD_eq_getElem _ _ hk2]
  simp [np_convolve_full]

theorem np_convolve_same_length (a v : List Nat) (h1 : v.length ≤ a.length)
    (h2 : 1 ≤ v.length) :
    (np_convolve_same a v).length = a.length := by
  simp only [np_convolve_same, List.length_take, List.length_drop,
    np_convolve_full_length]
  omega

theorem getD_drop_take (l : List Nat) (d m t : Nat) (h1 : t < m)
    (h2 : d + t < l.length) :
    ((l.drop d).take m).getD t 0 = l.getD (d + t) 0 := by
  have ht : t < ((l.drop d).take m).length := by
    simp only [List.length_take, List.length_drop]
    omega
  rw [List.getD_eq_getElem _ _ ht, List.getD_eq_getElem _ _ h2]
  simp [List.getElem_take, List.getElem_drop]

theorem window_reindex (a : List Nat) (h t : Nat) :
    ∑ j ∈ Finset.range (2 * h + 1),
      (if j ≤ h + t ∧ h + t - j < a.length then a.getD (h + t - j) 0 else 0) =
    ∑ i ∈ Finset.range a.length,
      (if t ≤ i + h ∧ i ≤ t + h then a.getD i 0 else 0) := by
  rw [← Finset.sum_filter, ← Finset.sum_filter]
  refine Finset.sum_nbij' (fun j => h + t - j) (fun i => h + t - i)
    ?_ ?_ ?_ ?_ ?_
  · intro j hj
    simp only [Finset.mem_filter, Finset.mem_range] at hj ⊢
    omega
  · intro i hi
    simp only [Finset.mem_filter, Finset.mem_range] at hi ⊢
    omega
  · intro j hj
    simp only [Finset.mem_filter, Finset.mem_range] at hj
    show h + t - (h + t - j) = j
    omega
  · intro i hi
    simp only [Finset.mem_filter, Finset.mem_range] at hi
    show h + t - (h + t - i) = i
    omega
  · intro j hj
    rfl

theorem np_convolve_same_getD_ones (a : List Nat) (h t : Nat)
    (hw : 2 * h + 1 ≤ a.length) (ht : t < a.length) :
    (np_convolve_same a (List.replicate (2 * h + 1) 1)).getD t 0 =
      centered_window_count a h t := by
  have hofs : (min a.length (List.replicate (2 * h + 1) 1).length - 1) / 2 = h := by
    simp only [List.length_replicate]
    omega
  have hmax : max a.length (List.replicate (2 * h + 1) 1).length = a.length := by
    simp only [List.length_replicate]
    omega
  rw [np_convolve_same, hofs, hmax]
  rw [getD_drop_take _ _ _ _ ht (by rw [np_convolve_full_length]; simp; omega)]
  rw [np_convolve_full_getD _ _ _ (by simp; omega)]
  rw [List.length_replicate, sum_map_range, centered_window_count, sum_map_range]
  rw [← window_reindex a h t]
  refine Finset.sum_congr rfl ?_
  intro j hj
  rw [Finset.mem_range] at hj
  by_cases hcond : j ≤ h + t ∧ h + t - j < a.length
  · rw [if_pos hcond, if_pos hcond]
    have : (List.replicate (2 * h + 1) 1).getD j 0 = 1 := by
      rw [List.getD_eq_getElem _ _ (by simpa using hj), List.getElem_replicate]
    rw [this, one_mul]
  · rw [if_neg hcond, if_neg hcond]

/-- C4 counterexample: for a single-column expanded CIGAR and window size 3,
numpy's same-mode convolution returns `max(len, window)` entries, so the
mask has length 3, not the claimed same length 1. -/
theorem window_detector_counterexample :
    get_pass_fail 3 2 [0] = some [0, 0, 0] ∧
    (([0, 0, 0] : List Nat)).length ≠ (([0] : List Nat)).length :=
  ⟨by decide, by decide⟩

/-- C4 (amended): when the expanded CIGAR has at least `window_size = 2h+1`
columns, the mask has the same length as the expanded CIGAR and each
column's value thresholds the truncated centred window count of the
non-match indicator (`< fail_threshold ↦ 0`, `≥ fail_threshold ↦ 1`);
for shorter inputs the mask instead has numpy's `'same'`-mode length
`max(len, window_size)`, as the counterexample shows. -/
theorem window_failure_detector (w thr h : Nat) (ec : List Nat)
    (hw : w = 2 * h + 1) (hwn : w ≤ ec.length) :
    ∃ mask, get_pass_fail w thr ec = some mask ∧
      mask.length = ec.length ∧
      ∀ t < ec.length, mask.getD t 0 =
        if centered_window_count (simplify_cigar ec) h t < thr then 0
        else 1 := by
  subst hw
  have hslen : (simplify_cigar ec).length = ec.length := by
    simp [simplify_cigar]
  have hcond : (ec.isEmpty || (2 * h + 1 == 0)) = false := by
    cases ec with
    | nil => simp at hwn
    | cons x xs => simp
  rw [get_pass_fail, hcond]
  simp only [Bool.false_eq_true, if_false]
  have hconvlen :
      (np_convolve_same (simplify_cigar ec) (List.replicate (2 * h + 1) 1)).length =
        ec.length := by
    rw [np_convolve_same_length _ _ (by rw [hslen]; simpa using hwn) (by simp)]
    exact hslen
  refine ⟨_, rfl, by simpa using hconvlen, ?_⟩
  intro t htlen
  have ht2 : t < (np_convolve_same (simplify_cigar ec)
      (List.replicate (2 * h + 1) 1)).length := by
    rw [hconvlen]
    exact htlen
  have htm : t < ((np_convolve_same (simplify_cigar ec)
      (List.replicate (2 * h + 1) 1)).map
        (fun v => if v < thr then 0 else 1)).length := by
    simpa using ht2
  rw [List.getD_eq_getElem _ _ htm, List.getElem_map]
  rw [← List.getD_eq_getElem _ _ ht2]
  rw [np_convolve_same_getD_ones _ h t (by rw [hslen]; exact hwn)
    (by rw [hslen]; exact htlen)]

/-- Concrete instantiation of `window_failure_detector`: window 3,
threshold 1, expanded CIGAR `[=, X, =, =]`. -/
theorem window_failure_detector_witness :
    ∃ mask, get_pass_fail 3 1 [0, 1, 0, 0] = some mask ∧
      mask.length = ([0, 1, 0, 0] : List Nat).length ∧
      ∀ t < ([0, 1, 0, 0] : List Nat).length, mask.getD t 0 =
        if centered_window_count (simplify_cigar [0, 1, 0, 0]) 1 t < 1 then 0
        else 1 :=
  window_failure_detector 3 1 1 [0, 1, 0, 0] (by decide) (by decide)

end Trycycler
